import Mathlib

/-!
Verification of the sublime-pmccabe plugin core (src/pmccabe.py).

Strings are modelled as List Char, bytes as Nat, machine integers as Int or
Nat. Each definition is a shallow embedding of the corresponding Python
function; doc comments name the source construct it models.
-/

set_option maxHeartbeats 1000000

/-- Block size cap for queued text blocks, from PmccabeCommand.BLOCK_SIZE = 2 ** 14. -/
def BLOCK_SIZE : Nat := 2 ^ 14

/-! ## Result records and the line parser (ComplexityLineRE, lines 24-29) -/

/-- The ComplexityResult namedtuple (lines 15-23). All fields are the raw
matched strings, since match.groups() yields strings. -/
structure ComplexityResult where
  modified_complexity : List Char
  traditional_complexity : List Char
  num_statements : List Char
  first_line : List Char
  lines_in_function : List Char
  filename : List Char
  definition_line : List Char
  function_name : List Char
deriving DecidableEq

/-- Character class of the regex token for a digit. The analyzer output is
ASCII, so the class is modelled as the ASCII digits. -/
def isDigitChar (c : Char) : Bool := '0' ≤ c && c ≤ '9'

/-- Character class of the regex whitespace token, modelled on the ASCII
whitespace characters. -/
def isSpaceChar (c : Char) : Bool :=
  c = ' ' || c = '\t' || c = '\n' || c = '\r' || c = '\x0b' || c = '\x0c'

/-- True when the list is empty or its head is not whitespace. -/
def headNotSpace (l : List Char) : Bool :=
  match l.head? with
  | some c => !(isSpaceChar c)
  | none => true

/-- One leading number-plus-whitespace group of ComplexityLineRE: a greedy
nonempty digit run followed by a greedy nonempty whitespace run. The two
character classes are disjoint, so greedy matching here is deterministic. -/
def matchNumWs (s : List Char) : Option (List Char × List Char) :=
  let d := s.takeWhile isDigitChar
  let rest := s.dropWhile isDigitChar
  let w := rest.takeWhile isSpaceChar
  let rest2 := rest.dropWhile isSpaceChar
  if d.isEmpty || w.isEmpty then none else some (d, rest2)

/-- The mandatory tail of ComplexityLineRE after the filename group: a literal
open parenthesis, the definition-line digits, a close parenthesis, a colon,
nonempty whitespace, then the function name (greedy to end of line). Returns
the definition-line digits and the function name. -/
def matchParenTail (r : List Char) : Option (List Char × List Char) :=
  match r with
  | [] => none
  | c :: r1 =>
    if c = '(' then
      let d := r1.takeWhile isDigitChar
      match r1.dropWhile isDigitChar with
      | ')' :: ':' :: r3 =>
        let w := r3.takeWhile isSpaceChar
        if d.isEmpty || w.isEmpty then none
        else some (d, r3.dropWhile isSpaceChar)
      | _ => none
    else none

/-- All splits of a list, longest first component first. This realizes the
greedy semantics of the filename group: the regex engine tries the longest
filename first and backtracks to shorter ones. -/
def splitsDesc : List Char → List (List Char × List Char)
  | [] => [([], [])]
  | c :: rest => ((splitsDesc rest).map (fun p => (c :: p.1, p.2))) ++ [([], c :: rest)]

/-- Checker for one candidate filename split. -/
def tailChecker (p : List Char × List Char) : Option (List Char × List Char × List Char) :=
  match matchParenTail p.2 with
  | some (d, n) => some (p.1, d, n)
  | none => none

/-- Greedy match of the filename group followed by the parenthesized tail:
the rightmost viable parenthesis wins, as for the greedy dot-star group. -/
def matchFilenameTail (r : List Char) : Option (List Char × List Char × List Char) :=
  (splitsDesc r).findSome? tailChecker

/-- ComplexityLineRE.match on one line of text (lines 24-29). Lines come from
the output panel and contain no newline character. -/
def complexityLineMatch (line : List Char) : Option ComplexityResult := do
  let (m, r1) ← matchNumWs line
  let (t, r2) ← matchNumWs r1
  let (n, r3) ← matchNumWs r2
  let (f, r4) ← matchNumWs r3
  let (l, r5) ← matchNumWs r4
  let (fn, d, name) ← matchFilenameTail r5
  pure ⟨m, t, n, f, l, fn, d, name⟩

/-- parse_complexity_results (lines 32-40): each line region is matched and
the matching ones are kept in order, paired with their region. -/
def parseComplexityResults {ρ : Type} (ls : List (List Char × ρ)) :
    List (ComplexityResult × ρ) :=
  ls.filterMap (fun p => (complexityLineMatch p.1).map (fun r => (r, p.2)))

/-! ## Bucketer (sort_results_into_buckets, lines 218-233) -/

/-- The int builtin applied to a digit string, as used on the matched numeric
fields. -/
def strToNat (s : List Char) : Nat :=
  s.foldl (fun acc c => acc * 10 + (c.toNat - '0'.toNat)) 0

inductive Bucket where
  | low
  | medium
  | high
deriving DecidableEq

/-- Numeric order of buckets: low < medium < high. -/
def bucketVal : Bucket → Nat
  | .low => 0
  | .medium => 1
  | .high => 2

/-- The classification rule of sort_results_into_buckets (lines 226-231):
greater than the high threshold gives high, else greater than the medium
threshold gives medium, else low. -/
def classify (modified highT medT : Int) : Bucket :=
  if modified > highT then .high
  else if modified > medT then .medium
  else .low

/-- The three-entry output dict of sort_results_into_buckets. -/
structure Buckets (ρ : Type) where
  low : List (ComplexityResult × ρ)
  medium : List (ComplexityResult × ρ)
  high : List (ComplexityResult × ρ)
deriving DecidableEq

/-- One loop iteration of sort_results_into_buckets: the record is appended
to the bucket selected by the if/elif/else chain, which is classify. -/
def sortStep {ρ : Type} (highT medT : Int) (bs : Buckets ρ)
    (p : ComplexityResult × ρ) : Buckets ρ :=
  match classify (strToNat p.1.modified_complexity) highT medT with
  | .high => { bs with high := bs.high ++ [p] }
  | .medium => { bs with medium := bs.medium ++ [p] }
  | .low => { bs with low := bs.low ++ [p] }

/-- sort_results_into_buckets (lines 218-233). -/
def sortResultsIntoBuckets {ρ : Type} (highT medT : Int)
    (results : List (ComplexityResult × ρ)) : Buckets ρ :=
  results.foldl (sortStep highT medT) ⟨[], [], []⟩

/-! ## Annotator (change_regions_from_output_to_active, lines 269-284) -/

/-- Character offset of the start of 0-based line i in a buffer whose lines
are given without their separators; each line contributes its length plus one
newline. -/
def lineStartOffset (lines : List (List Char)) (i : Nat) : Nat :=
  ((lines.take i).map (fun l => l.length + 1)).sum

/-- Total character count of the buffer. -/
def viewSize (lines : List (List Char)) : Nat :=
  (lines.map (fun l => l.length + 1)).sum - 1

/-- Modelled from the Sublime API: View.text_point converts a 0-based row to a
character offset, clamping out-of-range rows to the buffer bounds. -/
def textPoint (lines : List (List Char)) (row : Int) : Nat :=
  if row < 0 then 0
  else if lines.length ≤ row.toNat then viewSize lines
  else lineStartOffset lines row.toNat

/-- The region computed for one record by change_regions_from_output_to_active
(lines 274-280): text_point of definition_line minus one, to text_point of
definition_line. -/
def regionFor (lines : List (List Char)) (r : ComplexityResult) : Nat × Nat :=
  (textPoint lines ((strToNat r.definition_line : Int) - 1),
   textPoint lines (strToNat r.definition_line))

/-- The per-bucket loop body of change_regions_from_output_to_active. -/
def changeRegionsList {ρ : Type} (lines : List (List Char))
    (l : List (ComplexityResult × ρ)) : List (ComplexityResult × (Nat × Nat)) :=
  l.map (fun p => (p.1, regionFor lines p.1))

/-- change_regions_from_output_to_active (lines 269-284). -/
def changeRegions {ρ : Type} (lines : List (List Char)) (bs : Buckets ρ) :
    Buckets (Nat × Nat) :=
  ⟨changeRegionsList lines bs.low,
   changeRegionsList lines bs.medium,
   changeRegionsList lines bs.high⟩

/-! ## Incremental decoding and newline normalization (read_fileno, on_data) -/

/-- State of the incremental UTF-8 decoder, modelled from the codecs module
incremental utf-8 decoder with replace error handling used at line 126:
needed continuation bytes, accumulated code point bits, and the admissible
range of the next continuation byte. -/
structure Utf8State where
  needed : Nat
  acc : Nat
  lo : Nat
  hi : Nat
deriving DecidableEq

def Utf8State.initial : Utf8State := ⟨0, 0, 0x80, 0xBF⟩

/-- The replacement character emitted for undecodable bytes. -/
def replChar : Char := Char.ofNat 0xFFFD

/-- Decoder step on a byte in the initial state. -/
def utf8StepInit (b : Nat) : List Char × Utf8State :=
  if b ≤ 0x7F then ([Char.ofNat b], Utf8State.initial)
  else if 0xC2 ≤ b && b ≤ 0xDF then ([], ⟨1, b - 0xC0, 0x80, 0xBF⟩)
  else if b = 0xE0 then ([], ⟨2, 0, 0xA0, 0xBF⟩)
  else if b = 0xED then ([], ⟨2, 13, 0x80, 0x9F⟩)
  else if 0xE1 ≤ b && b ≤ 0xEF then ([], ⟨2, b - 0xE0, 0x80, 0xBF⟩)
  else if b = 0xF0 then ([], ⟨3, 0, 0x90, 0xBF⟩)
  else if b = 0xF4 then ([], ⟨3, 4, 0x80, 0x8F⟩)
  else if 0xF1 ≤ b && b ≤ 0xF3 then ([], ⟨3, b - 0xF0, 0x80, 0xBF⟩)
  else ([replChar], Utf8State.initial)

/-- Decoder step on one byte: either extend the pending sequence, finish it,
or emit a replacement character and reprocess the byte from the initial
state. -/
def utf8Step (s : Utf8State) (b : Nat) : List Char × Utf8State :=
  if s.needed = 0 then utf8StepInit b
  else if s.lo ≤ b && b ≤ s.hi then
    let acc2 := s.acc * 64 + (b - 0x80)
    if s.needed = 1 then ([Char.ofNat acc2], Utf8State.initial)
    else ([], ⟨s.needed - 1, acc2, 0x80, 0xBF⟩)
  else
    let r := utf8StepInit b
    (replChar :: r.1, r.2)

/-- decoder.decode on one buffer (line 129): the bytes are fed through the
per-byte state machine; a trailing incomplete sequence stays in the state. -/
def utf8DecodeChunk (s : Utf8State) : List Nat → List Char × Utf8State
  | [] => ([], s)
  | b :: rest =>
    let r := utf8Step s b
    let r2 := utf8DecodeChunk r.2 rest
    (r.1 ++ r2.1, r2.2)

/-- The decoded text fragments produced by the read loop for a sequence of
raw byte buffers, with the decoder state threaded across reads. -/
def decodeFragments (s : Utf8State) : List (List Nat) → List (List Char)
  | [] => []
  | b :: bs =>
    let r := utf8DecodeChunk s b
    r.1 :: decodeFragments r.2 bs

/-- First pass of the normalization at line 387: str.replace of CRLF by LF,
scanning left to right without overlap. -/
def replaceCRLF : List Char → List Char
  | [] => []
  | [c] => [c]
  | c1 :: c2 :: rest =>
    if c1 = '\r' && c2 = '\n' then '\n' :: replaceCRLF rest
    else c1 :: replaceCRLF (c2 :: rest)

/-- Second pass of the normalization at line 387: every remaining CR becomes
LF. -/
def replaceCR (s : List Char) : List Char :=
  s.map (fun c => if c = '\r' then '\n' else c)

/-- on_data newline normalization (lines 384-389), applied to one fragment. -/
def normalizeNewlines (s : List Char) : List Char :=
  replaceCR (replaceCRLF s)

/-- The text fragments that reach append_string for a sequence of raw byte
buffers: incremental decode, then per-fragment newline normalization. -/
def pipelineFragments (bufs : List (List Nat)) : List (List Char) :=
  (decodeFragments Utf8State.initial bufs).map normalizeNewlines

/-- True when a fragment ends in a carriage return. -/
def endsCR (f : List Char) : Bool := f.getLast? = some '\r'

/-- True when a fragment starts with a line feed. -/
def startsLF (f : List Char) : Bool := f.head? = some '\n'

/-- No fragment boundary falls between the CR and the LF of a CRLF pair. -/
def noCRLFSplit : List (List Char) → Bool
  | [] => true
  | f :: fs => (!(endsCR f && startsLF fs.flatten)) && noCRLFSplit fs

/-! ## DeliveryQueue (append_string, service_text_queue, run) -/

/-- The shared queue state: queued text blocks, the registered active job,
the text already flushed to the output panel, and the kill requests issued,
in order. Jobs are identified by Nat; a fresh AsyncProcess object is a fresh
identifier. -/
structure QueueState where
  queue : List (List Char)
  activeProc : Option Nat
  display : List Char
  killed : List Nat
deriving DecidableEq

/-- The block coalescing of append_string (lines 328-338) on the queue alone:
if the queue is empty a fresh empty block is added first; the text is merged
into the last block when it fits strictly below BLOCK_SIZE, else appended as
a new block. The Python comparison len(str) < BLOCK_SIZE - len(last) is over
int; it is equivalent to the Nat comparison used here. -/
def appendToBlocks (q0 : List (List Char)) (str : List Char) : List (List Char) :=
  let q := if q0.isEmpty then [[]] else q0
  if str.length + (q.getLastD []).length < BLOCK_SIZE then
    q.dropLast ++ [q.getLastD [] ++ str]
  else
    q ++ [str]

/-- The accepted-append path of append_string: only the queue changes. -/
def appendAccepted (s : QueueState) (str : List Char) : QueueState :=
  { s with queue := appendToBlocks s.queue str }

/-- append_string (lines 319-341): a nonempty job tag different from the
registered active job is discarded and the producing job is killed; otherwise
the text is coalesced into the queue. -/
def appendString (s : QueueState) (proc : Option Nat) (str : List Char) : QueueState :=
  match proc with
  | some j =>
    if some j ≠ s.activeProc then { s with killed := s.killed ++ [j] }
    else appendAccepted s str
  | none => appendAccepted s str

/-- service_text_queue (lines 343-359): pop the oldest block and flush it to
the display surface. -/
def serviceTextQueue (s : QueueState) : QueueState :=
  match s.queue with
  | [] => s
  | b :: rest => { s with queue := rest, display := s.display ++ b }

/-- The queue reset at the start of run (lines 181-210): the queue is cleared
and the new job is registered as active. -/
def runReset (s : QueueState) (newProc : Nat) : QueueState :=
  { s with queue := [], activeProc := some newProc }

/-- Operations on the shared queue state. -/
inductive QOp where
  | append (proc : Option Nat) (str : List Char)
  | reset (newProc : Nat)
  | service
deriving DecidableEq

def stepOp (s : QueueState) : QOp → QueueState
  | .append proc str => appendString s proc str
  | .reset p => runReset s p
  | .service => serviceTextQueue s

def runOps (s : QueueState) (ops : List QOp) : QueueState :=
  ops.foldl stepOp s

/-- The observable part of the queue state: everything except the kill
requests. -/
def obs (s : QueueState) : List (List Char) × Option Nat × List Char :=
  (s.queue, s.activeProc, s.display)

/-- True when the operation is an append tagged with job j. -/
def isAppendBy (j : Nat) : QOp → Bool
  | .append (some i) _ => i = j
  | _ => false

/-- True when the operation does not re-register job j as active. A run never
re-registers an old AsyncProcess object, so real traces satisfy this. -/
def avoidsJob (j : Nat) : QOp → Bool
  | .reset p => p ≠ j
  | _ => true

/-! ## ProcessRunner callbacks (AsyncProcess, lines 51-141) -/

inductive StreamId where
  | out
  | err
deriving DecidableEq

/-- Observable events of one read loop: a data delivery, the end-of-stream
observation, and the completion callback. -/
inductive ProcEvent where
  | onData (src : StreamId) (data : List Char)
  | eos (src : StreamId)
  | onFinished
deriving DecidableEq

/-- The event sequence of read_fileno (lines 125-141) on one stream: each
nonempty decoded chunk is delivered via on_data; the empty read is the
end-of-stream observation, after which on_finished fires only when
execute_finished is set. -/
def readLoopTrace (src : StreamId) (chunks : List (List Char)) (execFin : Bool) :
    List ProcEvent :=
  chunks.map (ProcEvent.onData src) ++
    ProcEvent.eos src :: (if execFin then [ProcEvent.onFinished] else [])

/-- The stdout thread is started with execute_finished set (line 92). -/
def stdoutTrace (chunks : List (List Char)) : List ProcEvent :=
  readLoopTrace .out chunks true

/-- The stderr thread is started with execute_finished unset (line 99). -/
def stderrTrace (chunks : List (List Char)) : List ProcEvent :=
  readLoopTrace .err chunks false

/-- zs is an interleaving of xs and ys preserving the order of each. -/
inductive Interleaves : List ProcEvent → List ProcEvent → List ProcEvent → Prop
  | nil : Interleaves [] [] []
  | left {zs xs ys x} : Interleaves zs xs ys → Interleaves (x :: zs) (x :: xs) ys
  | right {zs xs ys y} : Interleaves zs xs ys → Interleaves (y :: zs) xs (y :: ys)

/-- True for events produced by the stdout read loop. -/
def isOutEvent : ProcEvent → Bool
  | .onData .out _ => true
  | .eos .out => true
  | _ => false

/-! ## AsyncProcess kill and listener checks (kill, read_fileno) -/

/-- The listener and kill flag of an AsyncProcess (lines 56-57, 103-117). -/
structure ProcState where
  listener : Bool
  killed : Bool
  termSignals : Nat
deriving DecidableEq

def ProcState.start : ProcState := ⟨true, false, 0⟩

/-- Operations observable by one AsyncProcess: a kill request and the read
loop iterations. -/
inductive AOp where
  | kill
  | readData (src : StreamId) (data : List Char)
  | readEof (src : StreamId)
deriving DecidableEq

/-- Callbacks delivered to the listener. -/
inductive Callback where
  | onData (src : StreamId) (data : List Char)
  | onFinished
deriving DecidableEq

/-- One step of AsyncProcess: kill (lines 103-117) sends one termination
signal and clears the listener unless already killed; the read loop
(lines 125-141) checks the listener before each callback, and the stdout
end-of-stream triggers on_finished only when a listener is attached. -/
def procStep (s : ProcState) : AOp → ProcState × List Callback
  | .kill =>
    if s.killed then (s, [])
    else ({ listener := false, killed := true, termSignals := s.termSignals + 1 }, [])
  | .readData src d =>
    if s.listener then (s, [Callback.onData src d]) else (s, [])
  | .readEof src =>
    if src = .out && s.listener then (s, [Callback.onFinished]) else (s, [])

/-- Run a sequence of operations, accumulating the delivered callbacks. -/
def runProc (s : ProcState) : List AOp → ProcState × List Callback
  | [] => (s, [])
  | op :: ops =>
    let r := procStep s op
    let r2 := runProc r.1 ops
    (r2.1, r.2 ++ r2.2)

/-! ## General helper lemmas -/

theorem takeWhile_append_eq {p : Char → Bool} (a b : List Char)
    (ha : ∀ c ∈ a, p c = true) (hb : ∀ c, b.head? = some c → p c = false) :
    (a ++ b).takeWhile p = a ∧ (a ++ b).dropWhile p = b := by
  induction a with
  | nil =>
    simp only [List.nil_append]
    cases b with
    | nil => simp
    | cons c t =>
      have := hb c rfl
      simp [List.takeWhile, List.dropWhile, this]
  | cons c a ih =>
    have hc : p c = true := ha c (by simp)
    have ih2 := ih (fun x hx => ha x (by simp [hx]))
    simp [List.takeWhile, List.dropWhile, hc, ih2.1, ih2.2]

theorem findSome?_eq_none_of {α β : Type} {f : α → Option β} {l : List α}
    (h : ∀ a ∈ l, f a = none) : l.findSome? f = none := by
  induction l with
  | nil => rfl
  | cons a t ih =>
    have ha := h a (by simp)
    rw [List.findSome?_cons]
    simp only [ha]
    exact ih (fun x hx => h x (by simp [hx]))

theorem findSome?_append_of_none {α β : Type} {f : α → Option β} {l1 l2 : List α}
    (h : l1.findSome? f = none) : (l1 ++ l2).findSome? f = l2.findSome? f := by
  induction l1 with
  | nil => rfl
  | cons a t ih =>
    rw [List.findSome?_cons] at h
    rw [List.cons_append, List.findSome?_cons]
    cases hfa : f a with
    | some b => simp [hfa] at h
    | none => simp only [hfa] at h ⊢; exact ih h

theorem findSome?_append_of_some {α β : Type} {f : α → Option β} {l1 l2 : List α} {b : β}
    (h : l1.findSome? f = some b) : (l1 ++ l2).findSome? f = some b := by
  induction l1 with
  | nil => simp [List.findSome?_nil] at h
  | cons a t ih =>
    rw [List.findSome?_cons] at h
    rw [List.cons_append, List.findSome?_cons]
    cases hfa : f a with
    | some c => simp only [hfa] at h ⊢; exact h
    | none => simp only [hfa] at h ⊢; exact ih h

theorem findSome?_map_eq {α β γ : Type} (g : α → β) (f : β → Option γ) (l : List α) :
    (l.map g).findSome? f = l.findSome? (fun a => f (g a)) := by
  induction l with
  | nil => rfl
  | cons a t ih =>
    rw [List.map_cons, List.findSome?_cons, List.findSome?_cons]
    cases f (g a) <;> simp_all

theorem head?_append_of_ne_nil {α : Type} {a : List α} (b : List α) (h : a ≠ []) :
    (a ++ b).head? = a.head? := by
  cases a with
  | nil => exact absurd rfl h
  | cons x t => rfl

/-! ## C7: the bucketing rule -/

theorem sortFold_spec {ρ : Type} (highT medT : Int)
    (results : List (ComplexityResult × ρ)) (acc : Buckets ρ) :
    (results.foldl (sortStep highT medT) acc).high
        = acc.high ++ results.filter
            (fun p => decide (classify (strToNat p.1.modified_complexity) highT medT = Bucket.high))
    ∧ (results.foldl (sortStep highT medT) acc).medium
        = acc.medium ++ results.filter
            (fun p => decide (classify (strToNat p.1.modified_complexity) highT medT = Bucket.medium))
    ∧ (results.foldl (sortStep highT medT) acc).low
        = acc.low ++ results.filter
            (fun p => decide (classify (strToNat p.1.modified_complexity) highT medT = Bucket.low)) := by
  induction results generalizing acc with
  | nil => simp
  | cons p t ih =>
    simp only [List.foldl_cons, List.filter_cons]
    have := ih (sortStep highT medT acc p)
    rcases hc : classify (strToNat p.1.modified_complexity) highT medT with _ | _ | _ <;>
      · simp only [sortStep, hc] at this ⊢
        refine ⟨?_, ?_, ?_⟩ <;> simp [this.1, this.2.1, this.2.2, hc]

/-- Claim C7: classification follows the rule — modified complexity greater
than the high threshold gives the high bucket, else greater than the medium
threshold gives the medium bucket, else the low bucket; the bucket lists of
sort_results_into_buckets are exactly the records so classified, in order;
and with thresholds medium 7 and high 15, modified complexity 20 is high,
10 is medium, and 5 is low. -/
theorem C7_rule_confirmed :
    (∀ m highT medT : Int,
      (classify m highT medT = Bucket.high ↔ highT < m)
      ∧ (classify m highT medT = Bucket.medium ↔ (m ≤ highT ∧ medT < m))
      ∧ (classify m highT medT = Bucket.low ↔ (m ≤ highT ∧ m ≤ medT)))
    ∧ (∀ (results : List (ComplexityResult × Nat)) (highT medT : Int),
      (sortResultsIntoBuckets highT medT results).high
        = results.filter
            (fun p => decide (classify (strToNat p.1.modified_complexity) highT medT = Bucket.high))
      ∧ (sortResultsIntoBuckets highT medT results).medium
        = results.filter
            (fun p => decide (classify (strToNat p.1.modified_complexity) highT medT = Bucket.medium))
      ∧ (sortResultsIntoBuckets highT medT results).low
        = results.filter
            (fun p => decide (classify (strToNat p.1.modified_complexity) highT medT = Bucket.low)))
    ∧ (classify 20 15 7 = Bucket.high ∧ classify 10 15 7 = Bucket.medium
        ∧ classify 5 15 7 = Bucket.low) := by
  refine ⟨?_, ?_, by decide⟩
  · intro m highT medT
    refine ⟨?_, ?_, ?_⟩ <;>
      · unfold classify
        split <;> [skip; split] <;> simp <;> omega
  · intro results highT medT
    have := sortFold_spec highT medT results ⟨[], [], []⟩
    simpa [sortResultsIntoBuckets] using this

/-! ## C8: the concrete scenario line -/

/-- Claim C8: the line with five integers, filename foo.c, parenthesized 12
and name my_function parses to the record with those fields, the numeric
fields read as the integers 3, 2, 5, 10, 4 and 12, and classification with
thresholds medium 7 and high 15 puts the record in the low bucket. -/
theorem C8_scenario_confirmed :
    complexityLineMatch "3  2  5  10  4  foo.c(12):  my_function".toList
      = some ⟨"3".toList, "2".toList, "5".toList, "10".toList, "4".toList,
              "foo.c".toList, "12".toList, "my_function".toList⟩
    ∧ strToNat "3".toList = 3 ∧ strToNat "2".toList = 2 ∧ strToNat "5".toList = 5
    ∧ strToNat "10".toList = 10 ∧ strToNat "4".toList = 4 ∧ strToNat "12".toList = 12
    ∧ classify (strToNat "3".toList) 15 7 = Bucket.low
    ∧ (sortResultsIntoBuckets 15 7
        [(⟨"3".toList, "2".toList, "5".toList, "10".toList, "4".toList,
           "foo.c".toList, "12".toList, "my_function".toList⟩, (0 : Nat))]).low
      = [(⟨"3".toList, "2".toList, "5".toList, "10".toList, "4".toList,
           "foo.c".toList, "12".toList, "my_function".toList⟩, (0 : Nat))] := by
  refine ⟨by decide, by decide, by decide, by decide, by decide, by decide, by decide,
    by decide, by decide⟩

/-! ## C9: monotonicity of the bucketer -/

/-- Claim C9 counterexample: with thresholds medium 7 and high 15, modified
complexity 20 is strictly higher than 19, yet both land in the high bucket,
so the bucket of the higher record is not strictly above the bucket of the
lower one, refuting the claim that it is never lower than or equal. -/
theorem C9_counterexample :
    (20 : Int) > 19
    ∧ classify 20 15 7 = Bucket.high
    ∧ classify 19 15 7 = Bucket.high
    ∧ bucketVal (classify 20 15 7) ≤ bucketVal (classify 19 15 7) := by
  decide

/-- Claim C9 amended: for fixed thresholds, a record with strictly higher
modified complexity is never placed in a strictly lower bucket — the bucket
value is monotone in the modified complexity. Equal buckets do occur. -/
theorem C9_monotone_amended (highT medT a b : Int) (h : a > b) :
    bucketVal (classify b highT medT) ≤ bucketVal (classify a highT medT) := by
  unfold classify
  split_ifs <;> simp only [bucketVal] <;> omega

theorem C9_monotone_amended_witness :
    (10 : Int) > 5
    ∧ bucketVal (classify 5 15 7) ≤ bucketVal (classify 10 15 7) :=
  ⟨by decide, C9_monotone_amended 15 7 10 5 (by decide)⟩

/-! ## C6: the annotator -/

/-- Claim C6 counterexample: in a two-line target buffer, a record whose
definition line 100 is out of range is neither dropped nor anchored at its
first-line field 1; it is kept with a region clamped to the end of the
buffer, different from the region the first-line anchor would give. -/
theorem C6_counterexample :
    changeRegionsList [['a','b'], ['c','d']]
        [((⟨['3'], ['2'], ['5'], ['1'], ['4'], ['f'], ['1','0','0'], ['m']⟩ :
            ComplexityResult), (0 : Nat))]
      = [(⟨['3'], ['2'], ['5'], ['1'], ['4'], ['f'], ['1','0','0'], ['m']⟩,
          ((5 : Nat), (5 : Nat)))]
    ∧ (changeRegionsList [['a','b'], ['c','d']]
        [((⟨['3'], ['2'], ['5'], ['1'], ['4'], ['f'], ['1','0','0'], ['m']⟩ :
            ComplexityResult), (0 : Nat))]).length = 1
    ∧ ((5 : Nat), (5 : Nat))
        ≠ (textPoint [['a','b'], ['c','d']] ((strToNat ['1'] : Int) - 1),
           textPoint [['a','b'], ['c','d']] (strToNat ['1'])) := by
  refine ⟨by decide, by decide, by decide⟩

/-- Claim C6 amended: the annotator maps every record of every bucket to the
pair of text_point offsets for rows definition line minus one and definition
line, keeping every record (no drops, no fallback to the first-line field);
for a definition line within the target buffer this is the genuine half-open
line range from the start of line dl minus one to the start of line dl. -/
theorem C6_regions_amended {ρ : Type} (lines : List (List Char)) (bs : Buckets ρ) :
    ((changeRegions lines bs).low = bs.low.map (fun p => (p.1, regionFor lines p.1))
      ∧ (changeRegions lines bs).medium = bs.medium.map (fun p => (p.1, regionFor lines p.1))
      ∧ (changeRegions lines bs).high = bs.high.map (fun p => (p.1, regionFor lines p.1)))
    ∧ ((changeRegions lines bs).low.length = bs.low.length
      ∧ (changeRegions lines bs).medium.length = bs.medium.length
      ∧ (changeRegions lines bs).high.length = bs.high.length)
    ∧ (∀ r : ComplexityResult, 1 ≤ strToNat r.definition_line →
        strToNat r.definition_line < lines.length →
        regionFor lines r
          = (lineStartOffset lines (strToNat r.definition_line - 1),
             lineStartOffset lines (strToNat r.definition_line))) := by
  refine ⟨⟨rfl, rfl, rfl⟩, ⟨by simp [changeRegions, changeRegionsList],
    by simp [changeRegions, changeRegionsList], by simp [changeRegions, changeRegionsList]⟩, ?_⟩
  intro r h1 h2
  have e2 : ((strToNat r.definition_line : Int) - 1).toNat = strToNat r.definition_line - 1 := by
    omega
  have e4 : ((strToNat r.definition_line : Int)).toNat = strToNat r.definition_line := by omega
  unfold regionFor textPoint
  rw [e2, e4]
  split_ifs <;> first | rfl | (exfalso; omega)

theorem C6_regions_amended_witness :
    1 ≤ strToNat ['2']
    ∧ regionFor [['a','b'], ['c','d'], ['e']]
        (⟨['3'], ['2'], ['5'], ['1'], ['4'], ['f'], ['2'], ['m']⟩ : ComplexityResult)
      = (lineStartOffset [['a','b'], ['c','d'], ['e']] 1,
         lineStartOffset [['a','b'], ['c','d'], ['e']] 2) :=
  ⟨by decide,
   (C6_regions_amended (ρ := Nat) [['a','b'], ['c','d'], ['e']] ⟨[], [], []⟩).2.2
     (⟨['3'], ['2'], ['5'], ['1'], ['4'], ['f'], ['2'], ['m']⟩ : ComplexityResult)
     (by decide) (by decide)⟩

/-! ## C3: the delivery queue blocks -/

theorem appendToBlocks_nil_eq (s : List Char) :
    appendToBlocks [] s = if s.length + 0 < BLOCK_SIZE then [s] else [[], s] := rfl

theorem appendToBlocks_concat_eq (l : List (List Char)) (a s : List Char) :
    appendToBlocks (l ++ [a]) s
      = if s.length + a.length < BLOCK_SIZE then l ++ [a ++ s] else (l ++ [a]) ++ [s] := by
  have hne : (l ++ [a]).isEmpty = false := by cases l <;> rfl
  simp only [appendToBlocks, hne, Bool.false_eq_true, if_false, List.getLastD_concat,
    List.dropLast_concat]

theorem appendToBlocks_flatten (q : List (List Char)) (s : List Char) :
    (appendToBlocks q s).flatten = q.flatten ++ s := by
  rcases q.eq_nil_or_concat with rfl | ⟨l, a, rfl⟩
  · rw [appendToBlocks_nil_eq]
    split_ifs <;> simp
  · simp only [List.concat_eq_append]
    rw [appendToBlocks_concat_eq]
    split_ifs <;> simp

theorem appendToBlocks_blocks (q : List (List Char)) (s : List Char) :
    ∀ b ∈ appendToBlocks q s, b.length < BLOCK_SIZE ∨ b ∈ q ∨ b = s := by
  rcases q.eq_nil_or_concat with rfl | ⟨l, a, rfl⟩
  · rw [appendToBlocks_nil_eq]
    intro b hb
    split_ifs at hb with hcond
    · simp only [List.mem_singleton] at hb
      subst hb
      left
      omega
    · rcases List.mem_cons.1 hb with h | h
      · subst h; left; simp [BLOCK_SIZE]
      · simp only [List.mem_singleton] at h
        subst h; right; right; rfl
  · simp only [List.concat_eq_append]
    rw [appendToBlocks_concat_eq]
    intro b hb
    split_ifs at hb with hcond
    · rcases List.mem_append.1 hb with h | h
      · exact Or.inr (Or.inl (List.mem_append.2 (Or.inl h)))
      · simp only [List.mem_singleton] at h
        subst h
        left
        simp only [List.length_append]
        omega
    · rcases List.mem_append.1 hb with h | h
      · exact Or.inr (Or.inl h)
      · simp only [List.mem_singleton] at h
        subst h
        exact Or.inr (Or.inr rfl)

theorem foldAppend_spec (strs : List (List Char)) :
    ∀ q : List (List Char),
      (strs.foldl appendToBlocks q).flatten = q.flatten ++ strs.flatten
      ∧ ∀ b ∈ strs.foldl appendToBlocks q, b.length < BLOCK_SIZE ∨ b ∈ q ∨ b ∈ strs := by
  induction strs with
  | nil => exact fun q => ⟨by simp, fun b hb => Or.inr (Or.inl hb)⟩
  | cons s t ih =>
    intro q
    constructor
    · rw [List.foldl_cons, (ih (appendToBlocks q s)).1, appendToBlocks_flatten]
      simp
    · intro b hb
      rw [List.foldl_cons] at hb
      rcases (ih (appendToBlocks q s)).2 b hb with h | h | h
      · exact Or.inl h
      · rcases appendToBlocks_blocks q s b h with h2 | h2 | h2
        · exact Or.inl h2
        · exact Or.inr (Or.inl h2)
        · exact Or.inr (Or.inr (by simp [h2]))
      · exact Or.inr (Or.inr (by simp [h]))

theorem serviceIterate (q : List (List Char)) :
    ∀ s : QueueState, s.queue = q →
      (serviceTextQueue^[q.length] s).display = s.display ++ q.flatten
      ∧ (serviceTextQueue^[q.length] s).queue = [] := by
  induction q with
  | nil => intro s h; simp [h]
  | cons b rest ih =>
    intro s h
    have hstep : serviceTextQueue s = { s with queue := rest, display := s.display ++ b } := by
      unfold serviceTextQueue
      rw [h]
    rw [List.length_cons, Function.iterate_succ_apply, hstep]
    have := ih { s with queue := rest, display := s.display ++ b } rfl
    simpa using this

theorem foldlAppendAccepted (strs : List (List Char)) :
    ∀ s0 : QueueState,
      strs.foldl appendAccepted s0 = { s0 with queue := strs.foldl appendToBlocks s0.queue } := by
  induction strs with
  | nil => intro s0; rfl
  | cons s t ih =>
    intro s0
    rw [List.foldl_cons, List.foldl_cons, ih]
    rfl

/-- Claim C3 counterexample: a single accepted append of 16385 characters to
an empty queue is stored whole as one block of length 16385, which exceeds
the block size cap of 16384, refuting that every emitted block has length at
most the block size. -/
theorem C3_counterexample :
    List.replicate 16385 'x' ∈ appendToBlocks [] (List.replicate 16385 'x')
    ∧ (List.replicate 16385 'x').length = 16385
    ∧ BLOCK_SIZE = 16384 := by
  have hlen : (List.replicate 16385 'x').length = 16385 := by
    rw [List.length_replicate]
  have h0 := appendToBlocks_nil_eq (List.replicate 16385 'x')
  have hc : ¬((List.replicate 16385 'x').length + 0 < BLOCK_SIZE) := by
    rw [hlen]
    norm_num [BLOCK_SIZE]
  rw [if_neg hc] at h0
  refine ⟨?_, hlen, by norm_num [BLOCK_SIZE]⟩
  rw [h0]
  exact List.mem_cons.2 (Or.inr (List.mem_cons.2 (Or.inl rfl)))

/-- Claim C3 amended: for every sequence of accepted appends starting from an
empty queue, draining every block reproduces the exact concatenation of all
appended text, and every block either has length strictly below the block
size cap of 16384 or is the unsplit text of a single append (only an append
whose own text reaches the cap can produce an oversized block). -/
theorem C3_queue_amended (strs : List (List Char)) (s0 : QueueState)
    (h : s0.queue = []) :
    (strs.foldl appendAccepted s0).queue.flatten = strs.flatten
    ∧ (∀ b ∈ (strs.foldl appendAccepted s0).queue, b.length < BLOCK_SIZE ∨ b ∈ strs)
    ∧ (serviceTextQueue^[(strs.foldl appendAccepted s0).queue.length]
        (strs.foldl appendAccepted s0)).display = s0.display ++ strs.flatten
    ∧ (serviceTextQueue^[(strs.foldl appendAccepted s0).queue.length]
        (strs.foldl appendAccepted s0)).queue = [] := by
  have hfold := foldlAppendAccepted strs s0
  rw [hfold, h]
  have hq := foldAppend_spec strs []
  have hflat : (strs.foldl appendToBlocks []).flatten = strs.flatten := by
    simpa using hq.1
  have hserv := serviceIterate (strs.foldl appendToBlocks [])
      { s0 with queue := strs.foldl appendToBlocks [] } rfl
  refine ⟨hflat, ?_, ?_, ?_⟩
  · intro b hb
    rcases hq.2 b hb with h2 | h2 | h2
    · exact Or.inl h2
    · simp at h2
    · exact Or.inr h2
  · rw [hserv.1]
    simp [hflat]
  · exact hserv.2

theorem C3_queue_amended_witness :
    (⟨[], none, [], []⟩ : QueueState).queue = []
    ∧ ([['a'], ['b']].foldl appendAccepted (⟨[], none, [], []⟩ : QueueState)).queue.flatten
        = [['a'], ['b']].flatten :=
  ⟨rfl, (C3_queue_amended [['a'], ['b']] ⟨[], none, [], []⟩ rfl).1⟩

/-! ## C5: the line grammar -/

theorem head?_mem_of {α : Type} {l : List α} {c : α} (h : l.head? = some c) : c ∈ l := by
  cases l with
  | nil => simp at h
  | cons d t =>
    simp only [List.head?_cons, Option.some_inj] at h
    exact h ▸ List.mem_cons_self d t

theorem headNotSpace_spec {l : List Char} (h : headNotSpace l = true) :
    ∀ c, l.head? = some c → isSpaceChar c = false := by
  intro c hc
  cases l with
  | nil => simp at hc
  | cons d t =>
    simp only [List.head?_cons, Option.some_inj] at hc
    subst hc
    simp only [headNotSpace, List.head?_cons, Bool.not_eq_true'] at h
    exact h

theorem space_not_digit (c : Char) (h : isSpaceChar c = true) : isDigitChar c = false := by
  simp only [isSpaceChar, Bool.or_eq_true, decide_eq_true_eq] at h
  rcases h with ((((h | h) | h) | h) | h) | h <;> subst h <;> decide

theorem digit_not_space (c : Char) (h : isDigitChar c = true) : isSpaceChar c = false := by
  by_contra hc
  rw [Bool.not_eq_false] at hc
  have h2 := space_not_digit c hc
  rw [h] at h2
  exact Bool.noConfusion h2

theorem headNotSpace_of_digits {n : List Char} (hn : n ≠ [])
    (hd : ∀ c ∈ n, isDigitChar c = true) (rest : List Char) :
    headNotSpace (n ++ rest) = true := by
  cases n with
  | nil => exact absurd rfl hn
  | cons c t =>
    have := digit_not_space c (hd c (List.mem_cons_self c t))
    simp [headNotSpace, this]

theorem matchNumWs_spec (n w rest : List Char)
    (hn : n ≠ []) (hnd : ∀ c ∈ n, isDigitChar c = true)
    (hw : w ≠ []) (hws : ∀ c ∈ w, isSpaceChar c = true)
    (hrest : headNotSpace rest = true) :
    matchNumWs (n ++ (w ++ rest)) = some (n, rest) := by
  have hb1 : ∀ c, (w ++ rest).head? = some c → isDigitChar c = false := by
    intro c hc
    rw [head?_append_of_ne_nil rest hw] at hc
    exact space_not_digit c (hws c (head?_mem_of hc))
  have hA := takeWhile_append_eq (p := isDigitChar) n (w ++ rest) hnd hb1
  have hB := takeWhile_append_eq (p := isSpaceChar) w rest hws (headNotSpace_spec hrest)
  have hn2 : n.isEmpty = false := by
    cases n with
    | nil => exact absurd rfl hn
    | cons a t => rfl
  have hw2 : w.isEmpty = false := by
    cases w with
    | nil => exact absurd rfl hw
    | cons a t => rfl
  simp only [matchNumWs, hA.1, hA.2, hB.1, hB.2, hn2, hw2, Bool.or_self, if_false,
    Bool.false_eq_true]

theorem matchParenTail_none {s : List Char} (h : ∀ c, s.head? = some c → c ≠ '(') :
    matchParenTail s = none := by
  cases s with
  | nil => rfl
  | cons c r =>
    have hc := h c rfl
    simp only [matchParenTail, if_neg hc]

theorem matchParenTail_spec (d W name : List Char)
    (hd : d ≠ []) (hdd : ∀ c ∈ d, isDigitChar c = true)
    (hW : W ≠ []) (hWs : ∀ c ∈ W, isSpaceChar c = true)
    (hname : headNotSpace name = true) :
    matchParenTail ('(' :: (d ++ ')' :: ':' :: (W ++ name))) = some (d, name) := by
  have hA := takeWhile_append_eq (p := isDigitChar) d (')' :: ':' :: (W ++ name)) hdd
    (by
      intro c hc
      simp only [List.head?_cons, Option.some_inj] at hc
      subst hc
      rfl)
  have hB := takeWhile_append_eq (p := isSpaceChar) W name hWs (headNotSpace_spec hname)
  have hd2 : d.isEmpty = false := by
    cases d with
    | nil => exact absurd rfl hd
    | cons a t => rfl
  have hW2 : W.isEmpty = false := by
    cases W with
    | nil => exact absurd rfl hW
    | cons a t => rfl
  simp only [matchParenTail, if_pos rfl, hA.1, hA.2, hB.1, hB.2, hd2, hW2, Bool.or_self,
    if_false, Bool.false_eq_true, if_true]

theorem splitsDesc_snd_head (r : List Char) :
    ∀ p ∈ splitsDesc r, ∀ c, p.2.head? = some c → c ∈ r := by
  induction r with
  | nil =>
    intro p hp c hc
    simp only [splitsDesc, List.mem_singleton] at hp
    subst hp
    simp at hc
  | cons x t ih =>
    intro p hp c hc
    simp only [splitsDesc, List.mem_append, List.mem_map, List.mem_singleton] at hp
    rcases hp with ⟨q, hq, rfl⟩ | rfl
    · exact List.mem_cons.2 (Or.inr (ih q hq c hc))
    · simp only [List.head?_cons, Option.some_inj] at hc
      exact hc ▸ List.mem_cons_self x t

theorem findSome?_option_map {α β γ : Type} (f : α → Option β) (h : β → γ) (l : List α) :
    l.findSome? (fun a => (f a).map h) = (l.findSome? f).map h := by
  induction l with
  | nil => rfl
  | cons a t ih =>
    rw [List.findSome?_cons, List.findSome?_cons]
    cases f a <;> simp [ih]

theorem matchFilenameTail_spec (F d W name : List Char)
    (hd : d ≠ []) (hdd : ∀ c ∈ d, isDigitChar c = true)
    (hW : W ≠ []) (hWs : ∀ c ∈ W, isSpaceChar c = true)
    (hname : headNotSpace name = true) (hnp : '(' ∉ name) :
    matchFilenameTail (F ++ '(' :: (d ++ ')' :: ':' :: (W ++ name))) = some (F, d, name) := by
  have hT : '(' ∉ (d ++ ')' :: ':' :: (W ++ name)) := by
    intro hmem
    rcases List.mem_append.1 hmem with h | h
    · exact absurd (hdd _ h) (by decide)
    · rcases List.mem_cons.1 h with h | h
      · exact absurd h (by decide)
      · rcases List.mem_cons.1 h with h | h
        · exact absurd h (by decide)
        · rcases List.mem_append.1 h with h | h
          · exact absurd (hWs _ h) (by decide)
          · exact hnp h
  induction F with
  | nil =>
    unfold matchFilenameTail
    simp only [List.nil_append, splitsDesc]
    have hfirst : (((splitsDesc (d ++ ')' :: ':' :: (W ++ name))).map
        (fun p => ('(' :: p.1, p.2))).findSome? tailChecker) = none := by
      apply findSome?_eq_none_of
      intro q hq
      simp only [List.mem_map] at hq
      obtain ⟨p, hp, rfl⟩ := hq
      have hnone : matchParenTail p.2 = none := by
        apply matchParenTail_none
        intro c hc hceq
        subst hceq
        exact hT (splitsDesc_snd_head _ p hp '(' hc)
      simp [tailChecker, hnone]
    rw [findSome?_append_of_none hfirst]
    have hlast : tailChecker ([], '(' :: (d ++ ')' :: ':' :: (W ++ name)))
        = some ([], d, name) := by
      simp only [tailChecker, matchParenTail_spec d W name hd hdd hW hWs hname]
    simp [List.findSome?_cons, hlast]
  | cons x F' ih =>
    unfold matchFilenameTail at ih ⊢
    simp only [List.cons_append, splitsDesc]
    apply findSome?_append_of_some
    rw [findSome?_map_eq]
    have hfun : (fun p : List Char × List Char => tailChecker (x :: p.1, p.2))
        = (fun p => (tailChecker p).map (fun t => (x :: t.1, t.2))) := by
      funext p
      simp only [tailChecker]
      cases hmp : matchParenTail p.2 <;> simp [hmp]
    rw [hfun, findSome?_option_map]
    simp only [List.append_eq]
    rw [ih]
    rfl

/-- Claim C5 counterexample: a line in the grammar variant without the
parenthesized definition-line field does not match ComplexityLineRE at all —
the parser returns no record instead of a record with an absent
definition-line field, because the parenthesized group is mandatory in the
pattern. -/
theorem C5_counterexample :
    complexityLineMatch "3  2  5  10  4  foo.c:  my_function".toList = none := by
  decide

/-- Claim C5 amended: the parser accepts exactly the variant with the
parenthesized definition line. Every line made of five whitespace-separated
non-negative integers, a file-path field, a mandatory parenthesized line
number, a colon, whitespace and a function name parses to the populated
record with those fields; the definition-line field is always present in a
parsed record, so no fallback to the first-line field ever happens at parse
time. The side conditions pin the unique match: nonempty digit and
whitespace runs, a filename not starting with whitespace, and a function
name that does not start with whitespace and contains no open
parenthesis. -/
theorem C5_grammar_amended
    (n1 n2 n3 n4 n5 w1 w2 w3 w4 w5 F d W name : List Char)
    (hn1 : n1 ≠ []) (hd1 : ∀ c ∈ n1, isDigitChar c = true)
    (hn2 : n2 ≠ []) (hd2 : ∀ c ∈ n2, isDigitChar c = true)
    (hn3 : n3 ≠ []) (hd3 : ∀ c ∈ n3, isDigitChar c = true)
    (hn4 : n4 ≠ []) (hd4 : ∀ c ∈ n4, isDigitChar c = true)
    (hn5 : n5 ≠ []) (hd5 : ∀ c ∈ n5, isDigitChar c = true)
    (hw1 : w1 ≠ []) (hs1 : ∀ c ∈ w1, isSpaceChar c = true)
    (hw2 : w2 ≠ []) (hs2 : ∀ c ∈ w2, isSpaceChar c = true)
    (hw3 : w3 ≠ []) (hs3 : ∀ c ∈ w3, isSpaceChar c = true)
    (hw4 : w4 ≠ []) (hs4 : ∀ c ∈ w4, isSpaceChar c = true)
    (hw5 : w5 ≠ []) (hs5 : ∀ c ∈ w5, isSpaceChar c = true)
    (hF : headNotSpace F = true)
    (hd : d ≠ []) (hdd : ∀ c ∈ d, isDigitChar c = true)
    (hW : W ≠ []) (hWs : ∀ c ∈ W, isSpaceChar c = true)
    (hname : headNotSpace name = true) (hnp : '(' ∉ name) :
    complexityLineMatch
        (n1 ++ (w1 ++ (n2 ++ (w2 ++ (n3 ++ (w3 ++ (n4 ++ (w4 ++ (n5 ++ (w5 ++
          (F ++ '(' :: (d ++ ')' :: ':' :: (W ++ name)))))))))))))
      = some ⟨n1, n2, n3, n4, n5, F, d, name⟩ := by
  have hR : headNotSpace (F ++ '(' :: (d ++ ')' :: ':' :: (W ++ name))) = true := by
    cases F with
    | nil => rfl
    | cons c t =>
      simp only [headNotSpace, List.cons_append, List.head?_cons] at hF ⊢
      exact hF
  have e5 := matchNumWs_spec n5 w5
    (F ++ '(' :: (d ++ ')' :: ':' :: (W ++ name))) hn5 hd5 hw5 hs5 hR
  have e4 := matchNumWs_spec n4 w4
    (n5 ++ (w5 ++ (F ++ '(' :: (d ++ ')' :: ':' :: (W ++ name))))) hn4 hd4 hw4 hs4
    (headNotSpace_of_digits hn5 hd5 _)
  have e3 := matchNumWs_spec n3 w3
    (n4 ++ (w4 ++ (n5 ++ (w5 ++ (F ++ '(' :: (d ++ ')' :: ':' :: (W ++ name)))))))
    hn3 hd3 hw3 hs3 (headNotSpace_of_digits hn4 hd4 _)
  have e2 := matchNumWs_spec n2 w2
    (n3 ++ (w3 ++ (n4 ++ (w4 ++ (n5 ++ (w5 ++ (F ++ '(' :: (d ++ ')' :: ':' :: (W ++ name)))))))))
    hn2 hd2 hw2 hs2 (headNotSpace_of_digits hn3 hd3 _)
  have e1 := matchNumWs_spec n1 w1
    (n2 ++ (w2 ++ (n3 ++ (w3 ++ (n4 ++ (w4 ++ (n5 ++ (w5 ++ (F ++ '(' :: (d ++ ')' :: ':' :: (W ++ name)))))))))))
    hn1 hd1 hw1 hs1 (headNotSpace_of_digits hn2 hd2 _)
  have e6 := matchFilenameTail_spec F d W name hd hdd hW hWs hname hnp
  simp only [complexityLineMatch, e1, e2, e3, e4, e5, e6, Option.bind_eq_bind,
    Option.some_bind]
  rfl

theorem C5_grammar_amended_witness :
    (['1'] : List Char) ≠ []
    ∧ complexityLineMatch
        (['1'] ++ ([' '] ++ (['2'] ++ ([' '] ++ (['3'] ++ ([' '] ++ (['4'] ++ ([' '] ++
          (['5'] ++ ([' '] ++ (['a'] ++ '(' :: (['9'] ++ ')' :: ':' :: ([' '] ++ ['f'])))))))))))))
      = some ⟨['1'], ['2'], ['3'], ['4'], ['5'], ['a'], ['9'], ['f']⟩ :=
  ⟨by decide,
   C5_grammar_amended ['1'] ['2'] ['3'] ['4'] ['5'] [' '] [' '] [' '] [' '] [' ']
     ['a'] ['9'] [' '] ['f']
     (by decide) (by decide) (by decide) (by decide) (by decide) (by decide)
     (by decide) (by decide) (by decide) (by decide) (by decide) (by decide)
     (by decide) (by decide) (by decide) (by decide) (by decide) (by decide)
     (by decide) (by decide) (by decide) (by decide) (by decide) (by decide)
     (by decide) (by decide) (by decide)⟩

/-! ## C1: incremental decoding and newline normalization -/

theorem utf8DecodeChunk_append (a : List Nat) :
    ∀ (s : Utf8State) (b : List Nat),
      utf8DecodeChunk s (a ++ b)
        = ((utf8DecodeChunk s a).1 ++ (utf8DecodeChunk (utf8DecodeChunk s a).2 b).1,
           (utf8DecodeChunk (utf8DecodeChunk s a).2 b).2) := by
  induction a with
  | nil => intro s b; simp [utf8DecodeChunk]
  | cons x t ih =>
    intro s b
    simp only [List.cons_append, utf8DecodeChunk, List.append_eq]
    rw [ih]
    simp [List.append_assoc]

theorem decodeFragments_flatten (bufs : List (List Nat)) :
    ∀ s : Utf8State,
      (decodeFragments s bufs).flatten = (utf8DecodeChunk s bufs.flatten).1 := by
  induction bufs with
  | nil => intro s; simp [decodeFragments, utf8DecodeChunk]
  | cons b bs ih =>
    intro s
    simp only [decodeFragments, List.flatten_cons]
    rw [ih, utf8DecodeChunk_append b s bs.flatten]

theorem replaceCRLF_append : ∀ (a b : List Char),
    ¬(a.getLast? = some '\r' ∧ b.head? = some '\n') →
    replaceCRLF (a ++ b) = replaceCRLF a ++ replaceCRLF b
  | [], b, _ => by simp [replaceCRLF]
  | [c], b, h => by
    cases b with
    | nil => simp [replaceCRLF]
    | cons c2 t =>
      have hnot : ¬(c = '\r' ∧ c2 = '\n') := by
        rintro ⟨rfl, rfl⟩
        exact h ⟨rfl, rfl⟩
      simp only [List.singleton_append, replaceCRLF]
      rw [if_neg (by simpa using hnot)]
  | c1 :: c2 :: rest, b, h => by
    by_cases hc : c1 = '\r' ∧ c2 = '\n'
    · obtain ⟨rfl, rfl⟩ := hc
      have h2 : ¬(rest.getLast? = some '\r' ∧ b.head? = some '\n') := by
        cases rest with
        | nil => simp
        | cons r rs =>
          intro hx
          apply h
          rw [List.getLast?_cons_cons, List.getLast?_cons_cons]
          exact hx
      have hrec := replaceCRLF_append rest b h2
      simp only [List.cons_append, replaceCRLF, List.append_eq, decide_True, Bool.and_self,
        if_true]
      rw [hrec]
    · have h2 : ¬((c2 :: rest).getLast? = some '\r' ∧ b.head? = some '\n') := by
        intro hx
        apply h
        rw [List.getLast?_cons_cons]
        exact hx
      have hrec := replaceCRLF_append (c2 :: rest) b h2
      simp only [List.cons_append, replaceCRLF, List.append_eq]
      rw [if_neg (by simpa using hc), if_neg (by simpa using hc)]
      rw [List.cons_append] at hrec
      rw [hrec]
      rfl

theorem replaceCR_append (a b : List Char) :
    replaceCR (a ++ b) = replaceCR a ++ replaceCR b := by
  simp [replaceCR]

theorem normalizeNewlines_append (a b : List Char)
    (h : ¬(a.getLast? = some '\r' ∧ b.head? = some '\n')) :
    normalizeNewlines (a ++ b) = normalizeNewlines a ++ normalizeNewlines b := by
  unfold normalizeNewlines
  rw [replaceCRLF_append a b h, replaceCR_append]

theorem noCRLFSplit_flatten (fs : List (List Char)) (h : noCRLFSplit fs = true) :
    (fs.map normalizeNewlines).flatten = normalizeNewlines fs.flatten := by
  induction fs with
  | nil => rfl
  | cons f fs ih =>
    simp only [noCRLFSplit, Bool.and_eq_true, Bool.not_eq_true'] at h
    have hcond : ¬(f.getLast? = some '\r' ∧ fs.flatten.head? = some '\n') := by
      rintro ⟨h1, h2⟩
      have he : endsCR f = true := by simp [endsCR, h1]
      have hs : startsLF fs.flatten = true := by simp [startsLF, h2]
      rw [he, hs] at h
      exact Bool.noConfusion h.1
    simp only [List.map_cons, List.flatten_cons]
    rw [normalizeNewlines_append f fs.flatten hcond, ih h.2]

/-- Claim C1 counterexample: feeding the bytes of the text a CR LF b split
between the CR and the LF produces the fragments a LF and LF b — the
per-fragment normalization turns the trailing CR into LF immediately instead
of buffering it, so the concatenated output has two newlines while the
single-pass decode and normalization of the unsplit stream has one. -/
theorem C1_counterexample :
    (pipelineFragments [[97, 13], [10, 98]]).flatten = ['a', '\n', '\n', 'b']
    ∧ normalizeNewlines (utf8DecodeChunk Utf8State.initial ([[97, 13], [10, 98]].flatten)).1
        = ['a', '\n', 'b']
    ∧ (['a', '\n', '\n', 'b'] : List Char) ≠ ['a', '\n', 'b'] := by
  refine ⟨by decide, by decide, by decide⟩

/-- Claim C1 amended: the incremental decode is split-invariant for every
choice of buffer boundaries — the concatenated decoded fragments equal the
single-pass decode of the concatenated byte stream, including boundaries
inside a multi-byte character, which the decoder state buffers. The full
pipeline with per-fragment newline normalization equals the single-pass
result exactly when no fragment boundary falls between the CR and the LF of
a CRLF pair; the code does not buffer a trailing CR, so such a boundary
yields two LF characters instead of one. -/
theorem C1_decode_amended (bufs : List (List Nat))
    (h : noCRLFSplit (decodeFragments Utf8State.initial bufs) = true) :
    (decodeFragments Utf8State.initial bufs).flatten
        = (utf8DecodeChunk Utf8State.initial bufs.flatten).1
    ∧ (pipelineFragments bufs).flatten
        = normalizeNewlines (utf8DecodeChunk Utf8State.initial bufs.flatten).1 := by
  refine ⟨decodeFragments_flatten bufs _, ?_⟩
  unfold pipelineFragments
  rw [noCRLFSplit_flatten _ h, decodeFragments_flatten]

theorem C1_decode_amended_witness :
    noCRLFSplit (decodeFragments Utf8State.initial [[0xC3], [0xA9, 13, 10, 120]]) = true
    ∧ (pipelineFragments [[0xC3], [0xA9, 13, 10, 120]]).flatten
        = normalizeNewlines (utf8DecodeChunk Utf8State.initial
            ([[0xC3], [0xA9, 13, 10, 120]].flatten)).1 :=
  ⟨by decide, (C1_decode_amended [[0xC3], [0xA9, 13, 10, 120]] (by decide)).2⟩

/-! ## C4: staleness rule of the delivery queue -/

theorem appendString_stale {s : QueueState} {j : Nat} (h : s.activeProc ≠ some j)
    (str : List Char) :
    appendString s (some j) str = { s with killed := s.killed ++ [j] } := by
  simp only [appendString]
  rw [if_pos (fun he => h he.symm)]

theorem obs_ext {s t : QueueState} (h : obs s = obs t) :
    s.queue = t.queue ∧ s.activeProc = t.activeProc ∧ s.display = t.display := by
  simpa [obs, Prod.ext_iff] using h

theorem serviceTextQueue_active (s : QueueState) :
    (serviceTextQueue s).activeProc = s.activeProc := by
  unfold serviceTextQueue
  cases hq : s.queue <;> simp

theorem obs_stepOp {s t : QueueState} (h : obs s = obs t) (op : QOp) :
    obs (stepOp s op) = obs (stepOp t op) := by
  obtain ⟨h1, h2, h3⟩ := obs_ext h
  cases op with
  | append proc str =>
    cases proc with
    | none => simp [stepOp, appendString, appendAccepted, obs, h1, h2, h3]
    | some j =>
      simp only [stepOp, appendString]
      by_cases hj : some j ≠ s.activeProc
      · rw [if_pos hj, if_pos (h2 ▸ hj)]
        simp [obs, h1, h2, h3]
      · rw [if_neg hj, if_neg (h2 ▸ hj)]
        simp [appendAccepted, obs, h1, h2, h3]
  | reset p => simp [stepOp, runReset, obs, h3]
  | service =>
    simp only [stepOp]
    unfold serviceTextQueue
    rw [h1]
    cases hq : t.queue <;> simp [obs, h1, h2, h3]

theorem stepOp_active_ne {s : QueueState} {j : Nat} (h : s.activeProc ≠ some j) {op : QOp}
    (hop : avoidsJob j op = true) : (stepOp s op).activeProc ≠ some j := by
  cases op with
  | append proc str =>
    cases proc with
    | none => simpa [stepOp, appendString, appendAccepted] using h
    | some i =>
      simp only [stepOp, appendString]
      split
      · simpa using h
      · simpa [appendAccepted] using h
  | reset p =>
    simp only [avoidsJob, decide_eq_true_eq] at hop
    simp [stepOp, runReset, hop]
  | service =>
    rw [stepOp, serviceTextQueue_active]
    exact h

theorem runOps_filter_obs (j : Nat) : ∀ (ops : List QOp) (s t : QueueState),
    obs s = obs t → s.activeProc ≠ some j → (∀ op ∈ ops, avoidsJob j op = true) →
    obs (runOps s ops) = obs (runOps t (ops.filter (fun op => !(isAppendBy j op)))) := by
  intro ops
  induction ops with
  | nil =>
    intro s t h _ _
    simpa [runOps] using h
  | cons op rest ih =>
    intro s t h hact hav
    by_cases hop : isAppendBy j op = true
    · cases op with
      | append proc str =>
        cases proc with
        | none => simp [isAppendBy] at hop
        | some i =>
          have hij : i = j := by simpa [isAppendBy] using hop
          subst hij
          simp only [runOps, List.foldl_cons, List.filter_cons, hop, Bool.not_true,
            Bool.false_eq_true, if_false]
          have hstale : stepOp s (QOp.append (some i) str)
              = { s with killed := s.killed ++ [i] } := appendString_stale hact str
          rw [hstale]
          exact ih { s with killed := s.killed ++ [i] } t (by simpa [obs] using h)
            (by simpa using hact) (fun o ho => hav o (List.mem_cons.2 (Or.inr ho)))
      | reset p => simp [isAppendBy] at hop
      | service => simp [isAppendBy] at hop
    · have hop2 : isAppendBy j op = false := by
        revert hop
        cases isAppendBy j op <;> simp
      simp only [runOps, List.foldl_cons, List.filter_cons, hop2, Bool.not_false, if_true]
      exact ih (stepOp s op) (stepOp t op) (obs_stepOp h op)
        (stepOp_active_ne hact (hav op (List.mem_cons.2 (Or.inl rfl))))
        (fun o ho => hav o (List.mem_cons.2 (Or.inr ho)))

/-- Claim C4: an append tagged with a nonempty job reference different from
the registered active job leaves the queued blocks, the display and the
active registration unchanged, records a kill request for the producing job,
and — as long as no later run re-registers that job, which never happens
since runs register fresh jobs — the observable queue state and everything
drained to the display are identical to the run in which the superseded
job never appended at all. -/
theorem C4_stale_confirmed (s : QueueState) (j : Nat) (str : List Char) (ops : List QOp)
    (hact : s.activeProc ≠ some j)
    (hav : ∀ op ∈ ops, avoidsJob j op = true) :
    (appendString s (some j) str).queue = s.queue
    ∧ (appendString s (some j) str).display = s.display
    ∧ (appendString s (some j) str).activeProc = s.activeProc
    ∧ (appendString s (some j) str).killed = s.killed ++ [j]
    ∧ obs (runOps s ops) = obs (runOps s (ops.filter (fun op => !(isAppendBy j op)))) := by
  rw [appendString_stale hact str]
  exact ⟨rfl, rfl, rfl, rfl, runOps_filter_obs j ops s s rfl hact hav⟩

theorem C4_stale_confirmed_witness :
    ((⟨[], some 1, [], []⟩ : QueueState).activeProc ≠ some 2)
    ∧ (appendString (⟨[], some 1, [], []⟩ : QueueState) (some 2) ['z']).killed = [] ++ [2]
    ∧ obs (runOps (⟨[], some 1, [], []⟩ : QueueState)
          [QOp.append (some 2) ['z'], QOp.append (some 1) ['o'], QOp.service])
        = obs (runOps (⟨[], some 1, [], []⟩ : QueueState)
            ([QOp.append (some 2) ['z'], QOp.append (some 1) ['o'], QOp.service].filter
              (fun op => !(isAppendBy 2 op)))) :=
  ⟨by decide,
   (C4_stale_confirmed ⟨[], some 1, [], []⟩ 2 ['z']
      [QOp.append (some 2) ['z'], QOp.append (some 1) ['o'], QOp.service]
      (by decide) (by decide)).2.2.2.1,
   (C4_stale_confirmed ⟨[], some 1, [], []⟩ 2 ['z']
      [QOp.append (some 2) ['z'], QOp.append (some 1) ['o'], QOp.service]
      (by decide) (by decide)).2.2.2.2⟩

/-! ## C10: no callbacks after kill -/

theorem runProc_append (l1 : List AOp) :
    ∀ (l2 : List AOp) (s : ProcState),
      runProc s (l1 ++ l2)
        = ((runProc (runProc s l1).1 l2).1,
           (runProc s l1).2 ++ (runProc (runProc s l1).1 l2).2) := by
  induction l1 with
  | nil => intro l2 s; simp [runProc]
  | cons op t ih =>
    intro l2 s
    simp only [List.cons_append, runProc, List.append_eq]
    rw [ih]
    simp [List.append_assoc]

theorem procStep_listener_false {s : ProcState} (h : s.listener = false) (op : AOp) :
    ((procStep s op).1.listener = false) ∧ (procStep s op).2 = [] := by
  cases op with
  | kill =>
    simp only [procStep]
    split <;> simp [h]
  | readData src d => simp [procStep, h]
  | readEof src => simp [procStep, h]

theorem runProc_no_callbacks : ∀ (ops : List AOp) (s : ProcState), s.listener = false →
    (runProc s ops).2 = [] ∧ (runProc s ops).1.listener = false := by
  intro ops
  induction ops with
  | nil => intro s h; simpa [runProc] using h
  | cons op t ih =>
    intro s h
    have hs := procStep_listener_false h op
    simp only [runProc, hs.2, List.nil_append]
    exact ⟨(ih _ hs.1).1, (ih _ hs.1).2⟩

theorem killed_implies_no_listener : ∀ (ops : List AOp) (s : ProcState),
    (s.killed = true → s.listener = false) →
    ((runProc s ops).1.killed = true → (runProc s ops).1.listener = false) := by
  intro ops
  induction ops with
  | nil => intro s h; simpa [runProc] using h
  | cons op t ih =>
    intro s h
    simp only [runProc]
    apply ih
    cases op with
    | kill =>
      simp only [procStep]
      split
      · exact h
      · intro _; rfl
    | readData src d =>
      simp only [procStep]
      split <;> exact h
    | readEof src =>
      simp only [procStep]
      split <;> exact h

theorem kill_step_listener {s : ProcState} (h : s.killed = true → s.listener = false) :
    (procStep s AOp.kill).1.listener = false := by
  simp only [procStep]
  split
  · exact h (by assumption)
  · rfl

/-- Claim C10: once kill has been invoked on a job, no further data callback
and no completion callback is ever delivered to the listener — kill clears
the listener reference and each read loop checks the listener before every
callback, so the callbacks of any run are exactly the callbacks delivered
before the kill, and the listener is cleared from the kill on. -/
theorem C10_kill_confirmed (pre post : List AOp) :
    (runProc ProcState.start (pre ++ AOp.kill :: post)).2
      = (runProc ProcState.start (pre ++ [AOp.kill])).2
    ∧ (runProc ProcState.start (pre ++ [AOp.kill])).1.listener = false := by
  have hinv : (runProc ProcState.start pre).1.killed = true →
      (runProc ProcState.start pre).1.listener = false :=
    killed_implies_no_listener pre ProcState.start (by intro h; exact Bool.noConfusion h)
  have hklist : (procStep (runProc ProcState.start pre).1 AOp.kill).1.listener = false :=
    kill_step_listener hinv
  have hkcb : (procStep (runProc ProcState.start pre).1 AOp.kill).2 = [] := by
    simp only [procStep]
    split <;> rfl
  constructor
  · rw [runProc_append pre (AOp.kill :: post) ProcState.start,
      runProc_append pre [AOp.kill] ProcState.start]
    simp only [runProc, hkcb, List.nil_append, List.append_nil]
    rw [(runProc_no_callbacks post _ hklist).1]
    simp
  · rw [runProc_append pre [AOp.kill] ProcState.start]
    simp only [runProc, hkcb]
    exact hklist

/-! ## C2: completion callback ordering -/

theorem interleaves_nil_left : ∀ {zs xs ys : List ProcEvent},
    Interleaves zs xs ys → xs = [] → zs = ys := by
  intro zs xs ys h
  induction h with
  | nil => intro _; rfl
  | left h ih => intro hx; exact absurd hx (by simp)
  | right h ih => intro hx; rw [ih hx]

theorem interleaves_count (e : ProcEvent) : ∀ {zs xs ys : List ProcEvent},
    Interleaves zs xs ys → zs.count e = xs.count e + ys.count e := by
  intro zs xs ys h
  induction h with
  | nil => rfl
  | left h ih =>
    rename_i zs xs ys x
    by_cases hxe : x = e
    · simp [List.count_cons, hxe, ih]
      omega
    · simp [List.count_cons, hxe, ih]
  | right h ih =>
    rename_i zs xs ys y
    by_cases hye : y = e
    · simp [List.count_cons, hye, ih]
      omega
    · simp [List.count_cons, hye, ih]

theorem interleaves_no_out_after_fin : ∀ {zs xs ys : List ProcEvent},
    Interleaves zs xs ys →
    (∀ pre post, xs = pre ++ ProcEvent.onFinished :: post → post = []) →
    (∀ e ∈ ys, isOutEvent e = false ∧ e ≠ ProcEvent.onFinished) →
    ∀ pre post, zs = pre ++ ProcEvent.onFinished :: post →
      ∀ e ∈ post, isOutEvent e = false := by
  intro zs xs ys h
  induction h with
  | nil =>
    intro _ _ pre post heq
    exact absurd heq (by simp)
  | left h ih =>
    rename_i zs xs ys x
    intro hxs hys pre post heq e he
    cases pre with
    | nil =>
      simp only [List.nil_append, List.cons.injEq] at heq
      obtain ⟨hx, hz⟩ := heq
      subst hx
      subst hz
      have hxs0 : xs = [] := hxs [] xs rfl
      subst hxs0
      have hzy := interleaves_nil_left h rfl
      subst hzy
      exact (hys e he).1
    | cons p pre2 =>
      simp only [List.cons_append, List.cons.injEq] at heq
      obtain ⟨hx, heq2⟩ := heq
      have hxs2 : ∀ pr po, xs = pr ++ ProcEvent.onFinished :: po → po = [] := by
        intro pr po hpo
        exact hxs (x :: pr) po (by rw [hpo]; rfl)
      exact ih hxs2 hys pre2 post heq2 e he
  | right h ih =>
    rename_i zs xs ys y
    intro hxs hys pre post heq e he
    cases pre with
    | nil =>
      simp only [List.nil_append, List.cons.injEq] at heq
      exact absurd heq.1 (hys y (List.mem_cons_self y ys)).2
    | cons p pre2 =>
      simp only [List.cons_append, List.cons.injEq] at heq
      obtain ⟨hy, heq2⟩ := heq
      have hys2 : ∀ e ∈ ys, isOutEvent e = false ∧ e ≠ ProcEvent.onFinished :=
        fun e he => hys e (List.mem_cons.2 (Or.inr he))
      exact ih hxs hys2 pre2 post heq2 e he

theorem append_fin_last {A : List ProcEvent} (hA : ProcEvent.onFinished ∉ A) :
    ∀ pre post, A ++ [ProcEvent.onFinished] = pre ++ ProcEvent.onFinished :: post →
      post = [] := by
  induction A with
  | nil =>
    intro pre post heq
    cases pre with
    | nil => simpa using heq
    | cons p pr =>
      simp only [List.nil_append, List.cons_append, List.cons.injEq] at heq
      exact absurd heq.2.symm (by simp)
  | cons a A ih =>
    intro pre post heq
    cases pre with
    | nil =>
      simp only [List.cons_append, List.nil_append, List.cons.injEq] at heq
      apply absurd _ hA
      rw [← heq.1]
      exact List.mem_cons_self a A
    | cons p pr =>
      simp only [List.cons_append, List.cons.injEq] at heq
      exact ih (fun hm => hA (List.mem_cons.2 (Or.inr hm))) pr post heq.2

theorem stdoutTrace_eq (chunks : List (List Char)) :
    stdoutTrace chunks
      = (chunks.map (ProcEvent.onData .out) ++ [ProcEvent.eos .out])
          ++ [ProcEvent.onFinished] := by
  simp [stdoutTrace, readLoopTrace]

theorem stdoutTrace_fin_notmem (chunks : List (List Char)) :
    ProcEvent.onFinished ∉ (chunks.map (ProcEvent.onData StreamId.out)
      ++ [ProcEvent.eos StreamId.out]) := by
  intro hm
  rcases List.mem_append.1 hm with h | h
  · obtain ⟨c, _, hc⟩ := List.mem_map.1 h
    exact ProcEvent.noConfusion hc
  · simp at h

theorem stderrTrace_events (chunks : List (List Char)) :
    ∀ e ∈ stderrTrace chunks, isOutEvent e = false ∧ e ≠ ProcEvent.onFinished := by
  intro e he
  simp only [stderrTrace, readLoopTrace, Bool.false_eq_true, if_false] at he
  rcases List.mem_append.1 he with h | h
  · obtain ⟨c, _, rfl⟩ := List.mem_map.1 h
    exact ⟨rfl, by simp⟩
  · simp only [List.mem_singleton] at h
    subst h
    exact ⟨rfl, by simp⟩

theorem stdoutTrace_count_fin (chunks : List (List Char)) :
    (stdoutTrace chunks).count ProcEvent.onFinished = 1 := by
  rw [stdoutTrace_eq, List.count_append, List.count_eq_zero.2 (stdoutTrace_fin_notmem chunks)]
  rfl

theorem stderrTrace_count_fin (chunks : List (List Char)) :
    (stderrTrace chunks).count ProcEvent.onFinished = 0 :=
  List.count_eq_zero.2 (fun hm => (stderrTrace_events chunks _ hm).2 rfl)

theorem stdoutTrace_count_eos (chunks : List (List Char)) :
    (stdoutTrace chunks).count (ProcEvent.eos StreamId.out) = 1 := by
  rw [stdoutTrace_eq, List.count_append, List.count_append]
  have h1 : (chunks.map (ProcEvent.onData StreamId.out)).count (ProcEvent.eos StreamId.out)
      = 0 := by
    apply List.count_eq_zero.2
    intro hm
    obtain ⟨c, _, hc⟩ := List.mem_map.1 hm
    exact ProcEvent.noConfusion hc
  rw [h1]
  rfl

theorem stderrTrace_count_eos (chunks : List (List Char)) :
    (stderrTrace chunks).count (ProcEvent.eos StreamId.out) = 0 := by
  apply List.count_eq_zero.2
  intro hm
  have := (stderrTrace_events chunks _ hm).1
  exact absurd this (by decide)

/-- Claim C2 counterexample: when stdout reaches end-of-stream while stderr
still has data, the events can interleave so that the completion callback
fires before stderr observes end-of-stream and a stderr data callback is
delivered after the completion callback — on_finished is triggered by the
stdout loop alone. -/
theorem C2_counterexample :
    Interleaves
      [ProcEvent.eos .out, ProcEvent.onFinished, ProcEvent.onData .err ['x'],
        ProcEvent.eos .err]
      (stdoutTrace []) (stderrTrace [['x']])
    ∧ [ProcEvent.eos .out, ProcEvent.onFinished, ProcEvent.onData .err ['x'],
        ProcEvent.eos .err]
        = [ProcEvent.eos .out] ++ ProcEvent.onFinished ::
            [ProcEvent.onData .err ['x'], ProcEvent.eos .err]
    ∧ ProcEvent.eos StreamId.err ∉ [ProcEvent.eos StreamId.out]
    ∧ ProcEvent.onData StreamId.err ['x']
        ∈ [ProcEvent.onData StreamId.err ['x'], ProcEvent.eos StreamId.err] :=
  ⟨Interleaves.left (Interleaves.left (Interleaves.right (Interleaves.right Interleaves.nil))),
   rfl, by decide, by decide⟩

/-- Claim C2 amended: in every interleaving of the two read loops of a
naturally exiting run, the completion callback is invoked exactly once and
after the stdout end-of-stream, and no stdout data or end-of-stream event
follows it; stderr events are not so ordered — stderr data may be delivered
after the completion callback, since only the stdout loop triggers
on_finished. -/
theorem C2_finish_amended (outCh errCh : List (List Char)) (tr : List ProcEvent)
    (h : Interleaves tr (stdoutTrace outCh) (stderrTrace errCh)) :
    tr.count ProcEvent.onFinished = 1
    ∧ ∀ pre post, tr = pre ++ ProcEvent.onFinished :: post →
        ProcEvent.eos StreamId.out ∈ pre ∧ ∀ e ∈ post, isOutEvent e = false := by
  have hcnt1 : tr.count ProcEvent.onFinished = 1 := by
    rw [interleaves_count _ h, stdoutTrace_count_fin, stderrTrace_count_fin]
  refine ⟨hcnt1, ?_⟩
  intro pre post heq
  have hfinlast : ∀ p q, stdoutTrace outCh = p ++ ProcEvent.onFinished :: q → q = [] := by
    intro p q hpq
    exact append_fin_last (stdoutTrace_fin_notmem outCh) p q
      (by rw [← stdoutTrace_eq]; exact hpq)
  have hpost : ∀ e ∈ post, isOutEvent e = false :=
    interleaves_no_out_after_fin h hfinlast (stderrTrace_events errCh) pre post heq
  refine ⟨?_, hpost⟩
  have hceos : tr.count (ProcEvent.eos StreamId.out) = 1 := by
    rw [interleaves_count _ h, stdoutTrace_count_eos, stderrTrace_count_eos]
  have hmem : ProcEvent.eos StreamId.out ∈ tr := by
    apply List.count_pos_iff.1
    rw [hceos]
    norm_num
  rw [heq] at hmem
  rcases List.mem_append.1 hmem with hm | hm
  · exact hm
  · rcases List.mem_cons.1 hm with hm | hm
    · exact absurd hm (by decide)
    · exact absurd (hpost _ hm) (by decide)

theorem C2_finish_amended_witness :
    ([ProcEvent.onData .out ['a'], ProcEvent.eos .out, ProcEvent.onFinished,
        ProcEvent.eos .err] : List ProcEvent).count ProcEvent.onFinished = 1
    ∧ ProcEvent.eos StreamId.out ∈ [ProcEvent.onData .out ['a'], ProcEvent.eos .out] := by
  have hI : Interleaves
      [ProcEvent.onData .out ['a'], ProcEvent.eos .out, ProcEvent.onFinished,
        ProcEvent.eos .err]
      (stdoutTrace [['a']]) (stderrTrace []) :=
    Interleaves.left (Interleaves.left (Interleaves.left (Interleaves.right Interleaves.nil)))
  exact ⟨(C2_finish_amended [['a']] [] _ hI).1,
    ((C2_finish_amended [['a']] [] _ hI).2 [ProcEvent.onData .out ['a'], ProcEvent.eos .out]
      [ProcEvent.eos .err] rfl).1⟩
